import Mathlib

/-!
Verification of the composition-planning core of the video-tiling repository.

The definitions below are shallow embeddings of the planning logic of
`src/tile_videos.py` and `src/concat_videos.py`: clip durations become
rationals (`ℚ`), probed metadata that may be unavailable becomes
`Option ℚ`, the imperative loops become structural recursions carrying the
same loop state, and the ffmpeg filter strings become a structured list of
`Stage` values recording the same operations, labels and numeric
parameters.  Fallible code paths (a Python `IndexError`, an early
`return None`) are embedded as `Except`/error values.
-/

namespace VideoTiling

/-! ## Distribution strategies (`distribute_videos`, src/tile_videos.py lines 301-353) -/

/-- The three distribution modes of `distribute_videos` (the Python
dictionary `DISTRIBUTION_MODES`). -/
inductive DistMode
  | roundRobin
  | sequential
  | random
deriving DecidableEq

/-- Apply `f` to the `n`-th element of a list, leaving the rest unchanged.
This embeds the Python statement `distributed[tile_idx].append(video)`,
which mutates one bucket of the `distributed` list in place. -/
def modifyNth {α : Type} (f : α → α) : Nat → List α → List α
  | _, [] => []
  | 0, a :: as => f a :: as
  | n + 1, a :: as => a :: modifyNth f n as

/-- The round-robin loop of `distribute_videos`:
`for i, video in enumerate(video_files): distributed[i % num_tiles].append(video)`.
`i` is the running enumeration index and `acc` the list of buckets. -/
def rrAux {α : Type} (T : Nat) : List α → Nat → List (List α) → List (List α)
  | [], _, acc => acc
  | v :: vs, i, acc => rrAux T vs (i + 1) (modifyNth (fun l => l ++ [v]) (i % T) acc)

/-- One chunk size of the sequential loop:
`chunk_size = videos_per_tile + (1 if i < remainder else 0)`. -/
def csize (q r i : Nat) : Nat := q + (if i < r then 1 else 0)

/-- The sequential-blocks loop of `distribute_videos`:
`for i in range(num_tiles): ... distributed.append(video_files[start_idx:end_idx])`.
`q` is `videos_per_tile`, `r` is `remainder`, `rest` is the not-yet-assigned
suffix of the clip list (the slice from the running `start_idx`), `i` the loop
index, and the final argument the number of remaining iterations. -/
def seqSplitAux {α : Type} (q r : Nat) : List α → Nat → Nat → List (List α)
  | _, _, 0 => []
  | rest, i, fuel + 1 =>
      rest.take (csize q r i) :: seqSplitAux q r (rest.drop (csize q r i)) (i + 1) fuel

/-- A linear congruential pseudo-random step (glibc constants).  Part of the
seed-threaded shuffle model, see `shuffleSeed`. -/
def lcgNext (s : Nat) : Nat := (s * 1103515245 + 12345) % 2 ^ 31

/-- Remove the `n`-th element from a list, returning it and the remainder. -/
def pickOut {α : Type} : Nat → List α → Option (α × List α)
  | _, [] => none
  | 0, a :: as => some (a, as)
  | n + 1, a :: as => (pickOut n as).map (fun p => (p.1, a :: p.2))

/-- Fisher-Yates style draw-without-replacement loop driving `shuffleSeed`. -/
def shuffleGo {α : Type} : Nat → Nat → List α → List α
  | 0, _, l => l
  | fuel + 1, s, l =>
      match pickOut (s % l.length) l with
      | none => []
      | some (a, rest) => a :: shuffleGo fuel (lcgNext s) rest

/-- Modelled from the spec: the source's `random` mode calls
`random.shuffle(shuffled)` on a copy, using the process-global PRNG with no
seed parameter; the spec (sections 6 and 9) instead threads an explicit
caller-supplied seed through `distribute` so that random distribution is
deterministic.  We model that seed-threaded shuffle as a deterministic
Fisher-Yates permutation driven by a seed-initialised linear congruential
generator. -/
def shuffleSeed {α : Type} (seed : Nat) (l : List α) : List α :=
  shuffleGo l.length seed l

/-- Embedding of `distribute_videos(video_files, num_tiles, mode)`.  The
`seed` argument is the spec-modelled seed for `random` mode (see
`shuffleSeed`); the other two modes ignore it.  In `random` mode the code
shuffles a copy of the input and then runs exactly the sequential
partition loop on the shuffled list, with `total_videos` taken from the
original input list. -/
def distribute_videos {α : Type} (clips : List α) (T : Nat) (mode : DistMode)
    (seed : Nat) : List (List α) :=
  match mode with
  | .roundRobin => rrAux T clips 0 (List.replicate T [])
  | .sequential => seqSplitAux (clips.length / T) (clips.length % T) clips 0 T
  | .random =>
      seqSplitAux (clips.length / T) (clips.length % T) (shuffleSeed seed clips) 0 T

/-- Closed form for one round-robin bucket: the elements of `vs` whose
enumeration counter (starting at `i`) is congruent to `j` modulo `T`. -/
def rrTail {α : Type} (T j : Nat) : Nat → List α → List α
  | _, [] => []
  | i, v :: vs => (if i % T = j then [v] else []) ++ rrTail T j (i + 1) vs

/-- Every `T`-th element of a list, starting with its head. -/
def everyNth {α : Type} (T : Nat) : List α → List α
  | [] => []
  | v :: vs => v :: everyNth T (vs.drop (T - 1))
termination_by l => l.length
decreasing_by simp [List.length_drop]; omega

theorem modifyNth_length {α : Type} (f : α → α) :
    ∀ (n : Nat) (l : List α), (modifyNth f n l).length = l.length
  | 0, [] => rfl
  | _ + 1, [] => rfl
  | 0, _ :: _ => rfl
  | n + 1, _ :: as => congrArg Nat.succ (modifyNth_length f n as)

theorem modifyNth_getElem? {α : Type} (f : α → α) :
    ∀ (n : Nat) (l : List α) (j : Nat),
      (modifyNth f n l)[j]? = if j = n then l[j]?.map f else l[j]? := by
  intro n
  induction n with
  | zero =>
    intro l j
    cases l <;> cases j <;> simp [modifyNth]
  | succ n ih =>
    intro l j
    cases l <;> cases j <;> simp [modifyNth, ih]

theorem rrAux_getElem? {α : Type} (T : Nat) :
    ∀ (vs : List α) (i : Nat) (acc : List (List α)) (j : Nat), j < acc.length →
      (rrAux T vs i acc)[j]? = acc[j]?.map (fun l => l ++ rrTail T j i vs) := by
  intro vs
  induction vs with
  | nil =>
    intro i acc j hj
    simp [rrAux, rrTail]
  | cons v vs ih =>
    intro i acc j hj
    rw [rrAux, ih (i + 1) _ j (by rw [modifyNth_length]; exact hj),
      modifyNth_getElem?]
    obtain ⟨l, hl⟩ : ∃ l, acc[j]? = some l :=
      ⟨acc[j], List.getElem?_eq_getElem hj⟩
    by_cases h : j = i % T
    · rw [if_pos h, hl, rrTail, if_pos h.symm]
      simp [List.append_assoc]
    · rw [if_neg h, hl, rrTail, if_neg (fun hc => h hc.symm)]
      simp

theorem rrTail_drop {α : Type} (T j : Nat) :
    ∀ (k : Nat) (vs : List α) (c : Nat), (∀ t, t < k → (c + t) % T ≠ j) →
      rrTail T j c vs = rrTail T j (c + k) (vs.drop k) := by
  intro k
  induction k with
  | zero => intro vs c _; simp
  | succ k ih =>
    intro vs c h
    cases vs with
    | nil => simp [rrTail]
    | cons v vs =>
      have h0 : c % T ≠ j := by simpa using h 0 (by omega)
      rw [rrTail, if_neg h0, List.nil_append,
        ih vs (c + 1) (fun t ht => by
          have ht2 := h (t + 1) (by omega)
          rwa [show c + (t + 1) = c + 1 + t by omega] at ht2)]
      rw [show c + 1 + k = c + (k + 1) by omega]
      rfl

theorem add_mod_ne {j s T : Nat} (hj : j < T) (hs1 : 0 < s) (hs2 : s < T)
    (c : Nat) (hc : c % T = j) : (c + s) % T ≠ j := by
  rw [Nat.add_mod, hc, Nat.mod_eq_of_lt hs2]
  intro h
  rcases Nat.lt_or_ge (j + s) T with h1 | h1
  · rw [Nat.mod_eq_of_lt h1] at h
    omega
  · have h3 : (j + s) % T = (j + s - T) % T := Nat.mod_eq_sub_mod h1
    rw [h3, Nat.mod_eq_of_lt (by omega)] at h
    omega

theorem rrTail_eq_everyNth {α : Type} (T j : Nat) (hj : j < T) :
    ∀ (n : Nat) (vs : List α), vs.length ≤ n → ∀ c, c % T = j →
      rrTail T j c vs = everyNth T vs := by
  intro n
  induction n with
  | zero =>
    intro vs h c hc
    have hnil : vs = [] := List.length_eq_zero.mp (by omega)
    subst hnil
    simp [rrTail, everyNth]
  | succ n ih =>
    intro vs h c hc
    cases vs with
    | nil => simp [rrTail, everyNth]
    | cons v vs =>
      rw [rrTail, if_pos hc, List.singleton_append,
        rrTail_drop T j (T - 1) vs (c + 1) (fun t ht => by
          have ht2 := add_mod_ne hj (s := 1 + t) (by omega) (by omega) c hc
          rwa [show c + (1 + t) = c + 1 + t by omega] at ht2),
        show c + 1 + (T - 1) = c + T by omega,
        ih (vs.drop (T - 1)) (by simp [List.length_drop] at h ⊢; omega) (c + T)
          (by rw [Nat.add_mod_right]; exact hc)]
      conv_rhs => rw [everyNth]

theorem everyNth_getElem? {α : Type} (T : Nat) (hT : 1 ≤ T) :
    ∀ (m : Nat) (l : List α), (everyNth T l)[m]? = l[m * T]? := by
  intro m
  induction m with
  | zero =>
    intro l
    cases l with
    | nil => simp [everyNth]
    | cons v vs => simp [everyNth]
  | succ m ih =>
    intro l
    cases l with
    | nil => simp [everyNth]
    | cons v vs =>
      rw [everyNth, List.getElem?_cons_succ, ih, List.getElem?_drop]
      have hidx : (m + 1) * T = (T - 1 + m * T) + 1 := by
        rw [Nat.succ_mul]; omega
      rw [hidx, List.getElem?_cons_succ]

theorem distribute_rr_getElem? {α : Type} (clips : List α) (T : Nat)
    (seed : Nat) (j : Nat) (hj : j < T) :
    (distribute_videos clips T .roundRobin seed)[j]? = some (rrTail T j 0 clips) := by
  rw [distribute_videos, rrAux_getElem? T clips 0 _ j (by simpa using hj),
    List.getElem?_replicate, if_pos hj]
  simp

/-- C6: with `T ≥ 1` tiles, round-robin distribution gives tile `i`
(0-indexed) exactly the clips at input positions `i, i + T, i + 2T, …` in
their original relative order (element `m` of tile `i` is the clip at input
position `i + m * T`), and interleaving the tiles back — taking position
`k / T` from tile `k % T` — reproduces the original clip order exactly. -/
theorem C6_round_robin {α : Type} (clips : List α) (T : Nat) (hT : 1 ≤ T) :
    (∀ i, i < T → ∀ m,
        ((distribute_videos clips T .roundRobin 0).getD i [])[m]? = clips[i + m * T]?)
    ∧ (∀ k, k < clips.length →
        ((distribute_videos clips T .roundRobin 0).getD (k % T) [])[k / T]? = clips[k]?) := by
  have key : ∀ i, i < T → ∀ m,
      ((distribute_videos clips T .roundRobin 0).getD i [])[m]? = clips[i + m * T]? := by
    intro i hi m
    rw [List.getD_eq_getElem?_getD, distribute_rr_getElem? clips T 0 i hi]
    have h1 : rrTail T i 0 clips = everyNth T (clips.drop i) := by
      rw [rrTail_drop T i i clips 0 (fun t ht => by
          rw [Nat.zero_add, Nat.mod_eq_of_lt (by omega)]; omega),
        Nat.zero_add]
      exact rrTail_eq_everyNth T i hi (clips.drop i).length _ le_rfl i
        (Nat.mod_eq_of_lt hi)
    rw [Option.getD_some, h1, everyNth_getElem? T hT, List.getElem?_drop]
  refine ⟨key, fun k hk => ?_⟩
  have h2 := key (k % T) (Nat.mod_lt k (by omega)) (k / T)
  rwa [Nat.mod_add_div' k T] at h2

/-- Concrete use of `C6_round_robin`, discharging its hypothesis `1 ≤ T` at
`T = 2` on a five-clip list. -/
theorem C6_round_robin_witness :
    1 ≤ 2 ∧ ((distribute_videos [10, 20, 30, 40, 50] 2 .roundRobin 0).getD 1 [])[1]?
      = [10, 20, 30, 40, 50][1 + 1 * 2]? :=
  ⟨by decide, (C6_round_robin [10, 20, 30, 40, 50] 2 (by decide)).1 1 (by decide) 1⟩

/-- Total number of clips consumed by the sequential loop from index `i`
for the given number of remaining iterations. -/
def sumCsize (q r : Nat) : Nat → Nat → Nat
  | _, 0 => 0
  | i, fuel + 1 => csize q r i + sumCsize q r (i + 1) fuel

theorem sumCsize_add_min (q r : Nat) :
    ∀ (fuel i : Nat), sumCsize q r i fuel + min r i = fuel * q + min r (i + fuel) := by
  intro fuel
  induction fuel with
  | zero => intro i; simp [sumCsize]
  | succ fuel ih =>
    intro i
    have h2 := ih (i + 1)
    rw [sumCsize, Nat.succ_mul]
    unfold csize
    by_cases h : i < r
    · rw [if_pos h]; omega
    · rw [if_neg h]; omega

theorem seqSplitAux_spec {α : Type} (q r : Nat) :
    ∀ (fuel i : Nat) (rest : List α), rest.length = sumCsize q r i fuel →
      (seqSplitAux q r rest i fuel).length = fuel
      ∧ (∀ k, k < fuel → ((seqSplitAux q r rest i fuel).getD k []).length = csize q r (i + k))
      ∧ (seqSplitAux q r rest i fuel).flatten = rest := by
  intro fuel
  induction fuel with
  | zero =>
    intro i rest h
    refine ⟨rfl, fun k hk => absurd hk (by omega), ?_⟩
    have hnil : rest = [] := List.length_eq_zero.mp (by simpa [sumCsize] using h)
    simp [seqSplitAux, hnil]
  | succ fuel ih =>
    intro i rest h
    have hc : csize q r i ≤ rest.length := by
      rw [h, sumCsize]; omega
    have hdrop : (rest.drop (csize q r i)).length = sumCsize q r (i + 1) fuel := by
      rw [List.length_drop, h, sumCsize]; omega
    obtain ⟨hlen, hget, hflat⟩ := ih (i + 1) (rest.drop (csize q r i)) hdrop
    refine ⟨by simp [seqSplitAux, hlen], ?_, ?_⟩
    · intro k hk
      cases k with
      | zero =>
        rw [seqSplitAux]
        simp only [List.getD_cons_zero, List.length_take, Nat.add_zero]
        omega
      | succ k =>
        rw [seqSplitAux]
        simp only [List.getD_cons_succ]
        rw [hget k (by omega), show i + 1 + k = i + (k + 1) by omega]
    · rw [seqSplitAux, List.flatten_cons, hflat, List.take_append_drop]

theorem distribute_seq_total {α : Type} (clips : List α) (T : Nat) (hT : 1 ≤ T) :
    clips.length = sumCsize (clips.length / T) (clips.length % T) 0 T := by
  have h1 := sumCsize_add_min (clips.length / T) (clips.length % T) T 0
  have h2 : clips.length % T < T := Nat.mod_lt _ (by omega)
  have h3 := Nat.div_add_mod clips.length T
  simp only [Nat.zero_add, Nat.min_zero, Nat.add_zero] at h1
  rw [Nat.min_eq_left (by omega)] at h1
  omega

/-- C7: with `T ≥ 1` tiles, sequential distribution returns `T` contiguous
blocks — their concatenation in order is the original clip list — where
tile `i` has length `⌊N / T⌋` plus one extra clip exactly when
`i < N mod T`; consequently the tile lengths sum to `N` and any two tile
lengths differ by at most one, so earlier tiles are never smaller than
later ones by more than one clip. -/
theorem C7_sequential {α : Type} (clips : List α) (T : Nat) (hT : 1 ≤ T) :
    (distribute_videos clips T .sequential 0).length = T
    ∧ (∀ i, i < T → ((distribute_videos clips T .sequential 0).getD i []).length
        = clips.length / T + (if i < clips.length % T then 1 else 0))
    ∧ (distribute_videos clips T .sequential 0).flatten = clips
    ∧ ((distribute_videos clips T .sequential 0).map List.length).sum = clips.length
    ∧ (∀ i j, i < T → j < T →
        ((distribute_videos clips T .sequential 0).getD i []).length
          ≤ ((distribute_videos clips T .sequential 0).getD j []).length + 1) := by
  obtain ⟨hlen, hget, hflat⟩ :=
    seqSplitAux_spec (clips.length / T) (clips.length % T) T 0 clips
      (distribute_seq_total clips T hT)
  have hget0 : ∀ i, i < T → ((distribute_videos clips T .sequential 0).getD i []).length
      = clips.length / T + (if i < clips.length % T then 1 else 0) := by
    intro i hi
    have h := hget i hi
    rw [Nat.zero_add] at h
    exact h
  refine ⟨hlen, hget0, hflat, ?_, ?_⟩
  · rw [← List.length_flatten]
    exact congrArg List.length hflat
  · intro i j hi hj
    rw [hget0 i hi, hget0 j hj]
    by_cases h1 : i < clips.length % T <;> by_cases h2 : j < clips.length % T <;>
      simp [h1, h2] <;> omega

/-- Concrete use of `C7_sequential`, discharging its hypothesis `1 ≤ T` at
`T = 3` on a five-clip list. -/
theorem C7_sequential_witness :
    1 ≤ 3 ∧ (distribute_videos [10, 20, 30, 40, 50] 3 .sequential 0).flatten
      = [10, 20, 30, 40, 50] :=
  ⟨by decide, (C7_sequential [10, 20, 30, 40, 50] 3 (by decide)).2.2.1⟩

theorem pickOut_some {α : Type} :
    ∀ (n : Nat) (l : List α), n < l.length →
      ∃ a rest, pickOut n l = some (a, rest) ∧ rest.length + 1 = l.length := by
  intro n
  induction n with
  | zero =>
    intro l h
    cases l with
    | nil => simp at h
    | cons a as => exact ⟨a, as, rfl, rfl⟩
  | succ n ih =>
    intro l h
    cases l with
    | nil => simp at h
    | cons a as =>
      obtain ⟨b, rest, hb, hlen⟩ := ih as (by simpa using h)
      exact ⟨b, a :: rest, by simp [pickOut, hb], by simp; omega⟩

theorem shuffleGo_length {α : Type} :
    ∀ (fuel s : Nat) (l : List α), l.length = fuel → (shuffleGo fuel s l).length = fuel := by
  intro fuel
  induction fuel with
  | zero =>
    intro s l h
    simp [shuffleGo, h]
  | succ fuel ih =>
    intro s l h
    obtain ⟨a, rest, hp, hlen⟩ := pickOut_some (s % l.length) l (Nat.mod_lt _ (by omega))
    rw [shuffleGo, hp]
    simp only [List.length_cons]
    rw [ih (lcgNext s) rest (by omega)]

theorem shuffleSeed_length {α : Type} (seed : Nat) (l : List α) :
    (shuffleSeed seed l).length = l.length :=
  shuffleGo_length l.length seed l rfl

/-- C3: in the seed-threaded model of `random` mode (see `shuffleSeed`),
random distribution is deterministic — two invocations with identical clip
list, tile count and seed are the same value — and the shuffled sequence is
partitioned exactly as in `sequential` mode: random distribution of `clips`
equals sequential distribution of the shuffled list. -/
theorem C3_random_deterministic {α : Type} (clips : List α) (T : Nat) (seed : Nat) :
    distribute_videos clips T .random seed = distribute_videos clips T .random seed
    ∧ distribute_videos clips T .random seed
      = distribute_videos (shuffleSeed seed clips) T .sequential seed := by
  refine ⟨rfl, ?_⟩
  simp only [distribute_videos]
  rw [shuffleSeed_length]

/-! ## Transition graph synthesis
(`build_tile_with_transitions` and `create_tile_video`, src/tile_videos.py
lines 382-573; `build_xfade_filter` and `concat_with_transitions`,
src/concat_videos.py lines 127-209) -/

/-- The transition kinds of the `TRANSITIONS` dictionary. -/
inductive TransitionType
  | cut
  | fade
  | fadeblack
deriving DecidableEq

/-- Failure modes of the embedded fallible paths.  `indexError` models a
Python `IndexError` (`offsets[i]` past the end of the list);
`emptyTile` models `create_tile_video` returning `None` on an empty clip
list; `probeFailed` models `concat_with_transitions` returning `False`
when the first clip's properties cannot be determined.  `missingDuration`
is the typed error named by the spec; the embedded code never produces
it, the constructor exists so the spec's claim can be stated. -/
inductive PlanError
  | indexError
  | emptyTile
  | probeFailed
  | missingDuration
deriving DecidableEq

/-- Stream labels of the filter graph: `[i:v]`/`[i:a]` raw inputs are
implicit; `v i`/`a i` are the scaled per-clip streams `[vi]`/`[ai]`,
`vv i`/`aa i` the running merged streams `[vii]`/`[aii]`, `vf i`/`af i`
the faded streams `[vfi]`/`[afi]` of the fade-to-black branch, and
`outv`/`outa` the tile's output labels. -/
inductive Lbl
  | v (i : Nat)
  | a (i : Nat)
  | vv (i : Nat)
  | aa (i : Nat)
  | vf (i : Nat)
  | af (i : Nat)
  | outv
  | outa
deriving DecidableEq

/-- One line of the `filter_complex` built by `build_tile_with_transitions`
(and by the analogous builders in src/concat_videos.py), keeping the labels
and the numeric parameters that the timing claims are about; the geometric
scale/pad parameters of the per-input scale lines are not recorded. -/
inductive Stage
  | scaleV (i : Nat)
  | scaleA (i : Nat)
  | xfade (src1 src2 : Lbl) (d offset : ℚ) (out : Lbl)
  | acrossfade (src1 src2 : Lbl) (d : ℚ) (out : Lbl)
  | fadeOutV (src : Lbl) (st d : ℚ) (out : Lbl)
  | fadeOutA (src : Lbl) (st d : ℚ) (out : Lbl)
  | fadeInV (src : Lbl) (d : ℚ) (out : Lbl)
  | fadeInA (src : Lbl) (d : ℚ) (out : Lbl)
  | fadeInOutV (src : Lbl) (st d : ℚ) (out : Lbl)
  | fadeInOutA (src : Lbl) (st d : ℚ) (out : Lbl)
  | concatStage (inputs : List Lbl) (n : Nat)
deriving DecidableEq

/-- Output labels written by a stage. -/
def Stage.outputs : Stage → List Lbl
  | .scaleV i => [.v i]
  | .scaleA i => [.a i]
  | .xfade _ _ _ _ o => [o]
  | .acrossfade _ _ _ o => [o]
  | .fadeOutV _ _ _ o => [o]
  | .fadeOutA _ _ _ o => [o]
  | .fadeInV _ _ o => [o]
  | .fadeInA _ _ o => [o]
  | .fadeInOutV _ _ _ o => [o]
  | .fadeInOutA _ _ _ o => [o]
  | .concatStage _ _ => [.outv, .outa]

/-- The per-input scale lines
`[i:v]...scale...,setsar=1,fps=30[vi]` and `[i:a]aformat=...[ai]`
emitted for every input `i` in `range(num_videos)`. -/
def scaleStages (n : Nat) : List Stage :=
  (List.range n).flatMap (fun i => [.scaleV i, .scaleA i])

/-- The cross-fade offsets loop of both `build_tile_with_transitions`
(src/tile_videos.py lines 496-500) and `build_xfade_filter`
(src/concat_videos.py lines 189-193):
`offsets = [0]`, then for every clip except the last,
`if info: offsets.append(offsets[-1] + info['duration'] - duration)` —
a clip whose probe failed is silently skipped, making the list short. -/
def xfadeOffsetsAux (d : ℚ) : List (Option ℚ) → List ℚ → List ℚ
  | [], offs => offs
  | none :: rest, offs => xfadeOffsetsAux d rest offs
  | some dur :: rest, offs => xfadeOffsetsAux d rest (offs ++ [offs.getLastD 0 + dur - d])

/-- The cross-fade offset list for one tile: the loop above runs over
`video_files[:-1]`. -/
def xfadeOffsets (durs : List (Option ℚ)) (d : ℚ) : List ℚ :=
  xfadeOffsetsAux d durs.dropLast [0]

/-- The xfade chain loop `for i in range(1, num_videos)`: each iteration
reads `offsets[i]` (an out-of-range read is a Python `IndexError`,
embedded as `PlanError.indexError`) and appends one
`xfade=...:offset=offsets[i]` stage and one `acrossfade` stage, merging
the running streams `curV`/`curA` with the next clip's streams into
`[vii]`/`[aii]`, or into `outv`/`outa` on the last iteration. -/
def xfadeChainGo (n : Nat) (offsets : List ℚ) (d : ℚ) :
    Nat → Nat → Lbl → Lbl → Except PlanError (List Stage)
  | 0, _, _, _ => .ok []
  | fuel + 1, i, curV, curA =>
      match offsets[i]? with
      | none => .error .indexError
      | some off =>
          let nv := if i < n - 1 then Lbl.vv i else Lbl.outv
          let na := if i < n - 1 then Lbl.aa i else Lbl.outa
          (xfadeChainGo n offsets d fuel (i + 1) nv na).map
            (fun rest =>
              Stage.xfade curV (Lbl.v i) d off nv
                :: Stage.acrossfade curA (Lbl.a i) d na :: rest)

/-- The `fade` (cross-dissolve) branch of `build_tile_with_transitions`:
scale lines for every input, then the pairwise xfade chain starting from
`v0`/`a0` at `i = 1`. -/
def buildFade (durs : List (Option ℚ)) (d : ℚ) : Except PlanError (List Stage) :=
  (xfadeChainGo durs.length (xfadeOffsets durs d) d (durs.length - 1) 1
      (Lbl.v 0) (Lbl.a 0)).map
    (fun chain => scaleStages durs.length ++ chain)

/-- The fade-to-black per-clip loop: a clip whose probe failed is skipped
(`if not info: continue`); the first clip fades out over its last
half-window, the last clip fades in over its first half-window, interior
clips do both; the faded labels are collected as the concat inputs. -/
def fadeBlackGo (n : Nat) (ft : ℚ) : List (Option ℚ) → Nat → List Stage × List Lbl
  | [], _ => ([], [])
  | none :: rest, i => fadeBlackGo n ft rest (i + 1)
  | some vd :: rest, i =>
      let s : List Stage :=
        if i = 0 then
          [.fadeOutV (.v i) (vd - ft) ft (.vf i), .fadeOutA (.a i) (vd - ft) ft (.af i)]
        else if i = n - 1 then
          [.fadeInV (.v i) ft (.vf i), .fadeInA (.a i) ft (.af i)]
        else
          [.fadeInOutV (.v i) (vd - ft) ft (.vf i),
            .fadeInOutA (.a i) (vd - ft) ft (.af i)]
      let rest2 := fadeBlackGo n ft rest (i + 1)
      (s ++ rest2.1, [Lbl.vf i, Lbl.af i] ++ rest2.2)

/-- The `fadeblack` branch of `build_tile_with_transitions`: scale lines,
per-clip fades with window `duration / 2`, and one final
`concat=n=num_videos` stage over the collected faded labels (note the
`n` of the concat is the original clip count even when clips were
skipped). -/
def buildFadeBlack (durs : List (Option ℚ)) (d : ℚ) : List Stage :=
  scaleStages durs.length
    ++ (fadeBlackGo durs.length (d / 2) durs 0).1
    ++ [.concatStage (fadeBlackGo durs.length (d / 2) durs 0).2 durs.length]

/-- Embedding of `build_tile_with_transitions` (src/tile_videos.py lines
450-573): the `fade` branch, and the `else` branch for everything else
(the Python comment reads `else:  # fadeblack`). -/
def build_tile_with_transitions (durs : List (Option ℚ)) (kind : TransitionType)
    (d : ℚ) : Except PlanError (List Stage) :=
  match kind with
  | .fade => buildFade durs d
  | _ => .ok (buildFadeBlack durs d)

/-- The command shape produced by `create_tile_video`: a single scaled
input (`passthrough`), a concat-demuxer run over `n` clips (`concatCut`),
or a `-filter_complex` command whose `-map` targets are `[outv]` and
`[outa]` (`filterGraph`). -/
inductive TileCmd
  | passthrough
  | concatCut (n : Nat)
  | filterGraph (stages : List Stage)
deriving DecidableEq

/-- Embedding of `create_tile_video` (src/tile_videos.py lines 382-448):
empty clip list returns `None` (embedded as `emptyTile`); a single clip
with a `cut` transition is just scaled; `cut` over several clips uses the
concat demuxer; anything else defers to `build_tile_with_transitions`. -/
def create_tile_video (durs : List (Option ℚ)) (kind : TransitionType) (d : ℚ) :
    Except PlanError TileCmd :=
  if durs = [] then .error .emptyTile
  else if durs.length = 1 ∧ kind = .cut then .ok .passthrough
  else if kind = .cut then .ok (.concatCut durs.length)
  else (build_tile_with_transitions durs kind d).map .filterGraph

/-- The command shape produced by `concat_videos.py`: either the concat
demuxer with stream copy (`concat_simple_cut`) or a filter-graph command. -/
inductive ConcatCmd
  | copyConcat (n : Nat)
  | filterGraph (stages : List Stage)
deriving DecidableEq

/-- Embedding of `concat_with_transitions` (src/concat_videos.py lines
127-176): fewer than two clips falls back to `concat_simple_cut`;
otherwise the first clip is probed (failure returns `False`, embedded as
`probeFailed`) and the filter graph is built by `build_xfade_filter` or
`build_fadeblack_filter`, whose label/offset structure is the one
embedded above (their scale lines use pad geometry, which `Stage` does
not record). -/
def concat_with_transitions (durs : List (Option ℚ)) (kind : TransitionType)
    (d : ℚ) : Except PlanError ConcatCmd :=
  if durs.length < 2 then .ok (.copyConcat durs.length)
  else
    match durs.head? with
    | some (some _) =>
        match kind with
        | .fade => (buildFade durs d).map .filterGraph
        | _ => .ok (.filterGraph (buildFadeBlack durs d))
    | _ => .error .probeFailed

/-- Pure recurrence underlying the offsets loop when every probe
succeeds: starting from running offset `x`, each clip appends
`x + dur - d`. -/
def offsFrom (d : ℚ) : ℚ → List ℚ → List ℚ
  | _, [] => []
  | x, dur :: rest => (x + dur - d) :: offsFrom d (x + dur - d) rest

theorem getLastD_append_singleton {α : Type} (l : List α) (y x : α) :
    (l ++ [y]).getLastD x = y := by
  rw [List.getLastD_eq_getLast?, List.getLast?_concat]
  rfl

theorem xfadeOffsetsAux_someList (d : ℚ) :
    ∀ (ds : List ℚ) (offs : List ℚ),
      xfadeOffsetsAux d (ds.map some) offs = offs ++ offsFrom d (offs.getLastD 0) ds := by
  intro ds
  induction ds with
  | nil =>
    intro offs
    simp [xfadeOffsetsAux, offsFrom]
  | cons dur rest ih =>
    intro offs
    rw [List.map_cons, xfadeOffsetsAux, ih, getLastD_append_singleton,
      offsFrom, List.append_assoc, List.singleton_append]

theorem offsFrom_length (d : ℚ) :
    ∀ (ds : List ℚ) (x : ℚ), (offsFrom d x ds).length = ds.length
  | [], _ => rfl
  | _ :: rest, _ => congrArg Nat.succ (offsFrom_length d rest _)

theorem offsFrom_succ (d : ℚ) :
    ∀ (k : Nat) (ds : List ℚ) (x y dur : ℚ),
      (offsFrom d x ds)[k]? = some y → ds[k + 1]? = some dur →
      (offsFrom d x ds)[k + 1]? = some (y + dur - d) := by
  intro k
  induction k with
  | zero =>
    intro ds x y dur hy hdur
    cases ds with
    | nil => simp [offsFrom] at hy
    | cons dur0 rest =>
      simp only [offsFrom, List.getElem?_cons_zero, Option.some.injEq] at hy
      cases rest with
      | nil => simp at hdur
      | cons dur1 rest1 =>
        simp only [List.getElem?_cons_succ, List.getElem?_cons_zero,
          Option.some.injEq] at hdur
        simp [offsFrom, hy, hdur]
  | succ k ih =>
    intro ds x y dur hy hdur
    cases ds with
    | nil => simp [offsFrom] at hy
    | cons dur0 rest =>
      rw [offsFrom, List.getElem?_cons_succ] at hy
      rw [List.getElem?_cons_succ] at hdur
      rw [offsFrom, List.getElem?_cons_succ]
      exact ih rest _ y dur hy hdur

theorem xfadeOffsets_someList (durs : List ℚ) (d : ℚ) :
    xfadeOffsets (durs.map some) d = 0 :: offsFrom d 0 durs.dropLast := by
  rw [xfadeOffsets, ← List.map_dropLast, xfadeOffsetsAux_someList]
  rfl

/-- C1: when every clip's duration is known, the cross-fade offsets of
`build_tile_with_transitions` / `build_xfade_filter` follow the recurrence
`offset[0] = 0` and `offset[k+1] = offset[k] + duration(clip k) - d`
(clips 0-indexed, so `clip k` is the `(k+1)`-th clip), the offset list has
one entry per clip, and for three clips of durations `[10, 8, 6]` with
`d = 2` the offsets are `[0, 8, 14]`. -/
theorem C1_xfade_offsets (durs : List ℚ) (d : ℚ) (hne : durs ≠ []) :
    (xfadeOffsets (durs.map some) d).length = durs.length
    ∧ (xfadeOffsets (durs.map some) d)[0]? = some 0
    ∧ (∀ k, k + 1 < durs.length →
        ∃ prev dur, (xfadeOffsets (durs.map some) d)[k]? = some prev
          ∧ durs[k]? = some dur
          ∧ (xfadeOffsets (durs.map some) d)[k + 1]? = some (prev + dur - d))
    ∧ xfadeOffsets ([10, 8, 6].map some) 2 = [0, 8, 14] := by
  have hlen : (xfadeOffsets (durs.map some) d).length = durs.length := by
    rw [xfadeOffsets_someList, List.length_cons, offsFrom_length,
      List.length_dropLast]
    have : durs.length ≠ 0 := fun h => hne (List.length_eq_zero.mp h)
    omega
  refine ⟨hlen, by rw [xfadeOffsets_someList]; simp, ?_,
    by rw [xfadeOffsets_someList]; norm_num [offsFrom]⟩
  intro k hk
  have hdl : durs.dropLast[k]? = durs[k]? := by
    rw [List.getElem?_dropLast, if_pos (by omega)]
  have hklt : k < durs.length := by omega
  obtain ⟨dur, hdur⟩ : ∃ dur, durs[k]? = some dur :=
    ⟨durs.get ⟨k, hklt⟩, List.getElem?_eq_getElem hklt⟩
  cases k with
  | zero =>
    refine ⟨0, dur, by rw [xfadeOffsets_someList]; simp, hdur, ?_⟩
    rw [xfadeOffsets_someList, List.getElem?_cons_succ]
    have h0 : durs.dropLast[0]? = some dur := by rw [hdl]; exact hdur
    cases hdl2 : durs.dropLast with
    | nil => rw [hdl2] at h0; simp at h0
    | cons d0 drest =>
      rw [hdl2] at h0
      simp only [List.getElem?_cons_zero, Option.some.injEq] at h0
      rw [h0]
      simp [offsFrom]
  | succ k =>
    have hk1 : k + 1 < (xfadeOffsets (durs.map some) d).length := by omega
    obtain ⟨prev, hprev⟩ : ∃ p, (xfadeOffsets (durs.map some) d)[k + 1]? = some p :=
      ⟨_, List.getElem?_eq_getElem hk1⟩
    refine ⟨prev, dur, hprev, hdur, ?_⟩
    rw [xfadeOffsets_someList] at hprev ⊢
    rw [List.getElem?_cons_succ] at hprev ⊢
    exact offsFrom_succ d k durs.dropLast 0 prev dur hprev (by rw [hdl]; exact hdur)

/-- Concrete use of `C1_xfade_offsets`, discharging its nonemptiness
hypothesis on the spec's three-clip example. -/
theorem C1_xfade_offsets_witness :
    ([10, 8, 6] : List ℚ) ≠ []
    ∧ ((xfadeOffsets (([10, 8, 6] : List ℚ).map some) 2).length = ([10, 8, 6] : List ℚ).length
      ∧ (xfadeOffsets (([10, 8, 6] : List ℚ).map some) 2)[0]? = some 0
      ∧ (∀ k, k + 1 < ([10, 8, 6] : List ℚ).length →
          ∃ prev dur, (xfadeOffsets (([10, 8, 6] : List ℚ).map some) 2)[k]? = some prev
            ∧ ([10, 8, 6] : List ℚ)[k]? = some dur
            ∧ (xfadeOffsets (([10, 8, 6] : List ℚ).map some) 2)[k + 1]? = some (prev + dur - 2))
      ∧ xfadeOffsets ([10, 8, 6].map some) 2 = [0, 8, 14]) :=
  ⟨by decide, C1_xfade_offsets [10, 8, 6] 2 (by decide)⟩

theorem xfadeOffsetsAux_length (d : ℚ) :
    ∀ (ds : List (Option ℚ)) (offs : List ℚ),
      (xfadeOffsetsAux d ds offs).length = offs.length + ds.countP Option.isSome := by
  intro ds
  induction ds with
  | nil =>
    intro offs
    simp [xfadeOffsetsAux]
  | cons x rest ih =>
    intro offs
    cases x with
    | none => rw [xfadeOffsetsAux, ih]; simp [List.countP_cons]
    | some dur =>
      rw [xfadeOffsetsAux, ih]
      simp [List.countP_cons, Option.isSome]
      omega

theorem countP_lt_length_of_mem {α : Type} (p : α → Bool) :
    ∀ (l : List α) (x : α), x ∈ l → p x = false → l.countP p < l.length := by
  intro l
  induction l with
  | nil => intro x hx _; simp at hx
  | cons a as ih =>
    intro x hx hpx
    rw [List.countP_cons, List.length_cons]
    rcases List.mem_cons.mp hx with h | h
    · subst h
      rw [hpx]
      simpa using Nat.lt_succ_of_le (List.countP_le_length p)
    · have := ih x h hpx
      by_cases hpa : p a = true <;> simp [hpa] <;> omega

theorem xfadeChainGo_error (n : Nat) (offsets : List ℚ) (d : ℚ) :
    ∀ (fuel i : Nat) (cv ca : Lbl), i ≤ offsets.length → offsets.length < i + fuel →
      xfadeChainGo n offsets d fuel i cv ca = .error .indexError := by
  intro fuel
  induction fuel with
  | zero => intro i cv ca h1 h2; omega
  | succ fuel ih =>
    intro i cv ca h1 h2
    by_cases hi : i < offsets.length
    · obtain ⟨x, hx⟩ : ∃ x, offsets[i]? = some x :=
        ⟨offsets[i], List.getElem?_eq_getElem hi⟩
      rw [xfadeChainGo, hx]
      simp only
      rw [ih (i + 1) _ _ (by omega) (by omega)]
      rfl
    · have hn : offsets[i]? = none := List.getElem?_eq_none_iff.mpr (by omega)
      rw [xfadeChainGo, hn]

theorem buildFade_error (durs : List (Option ℚ)) (d : ℚ) (h : none ∈ durs.dropLast) :
    buildFade durs d = .error .indexError := by
  have hlen : (xfadeOffsets durs d).length = 1 + durs.dropLast.countP Option.isSome := by
    rw [xfadeOffsets, xfadeOffsetsAux_length]
    rfl
  have hcount : durs.dropLast.countP Option.isSome < durs.dropLast.length :=
    countP_lt_length_of_mem Option.isSome durs.dropLast none h rfl
  have hdl : 1 ≤ durs.dropLast.length := List.length_pos.mpr (List.ne_nil_of_mem h)
  have hdur : durs.dropLast.length = durs.length - 1 := List.length_dropLast durs
  rw [buildFade, xfadeChainGo_error durs.length (xfadeOffsets durs d) d
    (durs.length - 1) 1 (Lbl.v 0) (Lbl.a 0) (by omega) (by omega)]
  rfl

/-- C4 (amended): when any required clip's duration (those of all clips but
the last) is unavailable, cross-fade synthesis of that tile does fail — but
with an untyped index-out-of-range failure (the Python `IndexError` raised
when the cross-fade chain reads `offsets[i]` past the end of the
too-short offsets list), not with the typed error `MissingDuration`,
which the code never produces. -/
theorem C4_missing_duration_amended (durs : List (Option ℚ)) (d : ℚ)
    (h : none ∈ durs.dropLast) :
    create_tile_video durs .fade d = .error .indexError := by
  have hdl : 1 ≤ durs.dropLast.length := List.length_pos.mpr (List.ne_nil_of_mem h)
  have hdur : durs.dropLast.length = durs.length - 1 := List.length_dropLast durs
  have hne : durs ≠ [] := by
    intro hnil
    rw [hnil] at hdl
    simp at hdl
  rw [create_tile_video, if_neg hne,
    if_neg (fun hc => by exact absurd hc.2 (by simp)),
    if_neg (by simp), build_tile_with_transitions, buildFade_error durs d h]
  rfl

/-- Counterexample to C4 as stated: for two clips whose first duration is
unavailable, cross-fade tile synthesis fails with the embedded
`IndexError`, not with the typed error `MissingDuration` the claim names. -/
theorem C4_missing_duration_counterexample :
    create_tile_video [none, some 5] .fade 1 = .error .indexError
    ∧ create_tile_video [none, some 5] .fade 1 ≠ .error .missingDuration := by
  have h : create_tile_video [none, some 5] .fade 1 = .error .indexError := by
    rw [create_tile_video, if_neg (by simp),
      if_neg (fun hc => by exact absurd hc.2 (by simp)), if_neg (by simp),
      build_tile_with_transitions, buildFade_error [none, some 5] 1 (by simp)]
    rfl
  exact ⟨h, by rw [h]; intro hc; cases hc⟩

/-- Concrete use of `C4_missing_duration_amended`, discharging its
hypothesis that some required duration is unavailable. -/
theorem C4_missing_duration_witness :
    (none ∈ ([none, some 5, some 7] : List (Option ℚ)).dropLast)
    ∧ create_tile_video [none, some 5, some 7] .fade 1 = .error .indexError :=
  ⟨by simp, C4_missing_duration_amended [none, some 5, some 7] 1 (by simp)⟩

/-- C9 (amended): a single-clip tile reduces to a pass-through only in the
concat workflow (any kind) and in the tile workflow for kind `cut`.  For
kind `fadeblack` the tile workflow still runs the transition builder,
emitting fade-out stages and a one-input concat stage; for kind `fade` it
emits only the scale stages, and no emitted stage produces the output
label `outv` that the command maps. -/
theorem C9_single_clip_amended :
    (∀ (x : Option ℚ) (kind : TransitionType) (d : ℚ),
        concat_with_transitions [x] kind d = .ok (.copyConcat 1))
    ∧ (∀ (x : Option ℚ) (d : ℚ), create_tile_video [x] .cut d = .ok .passthrough)
    ∧ (∀ (dur d : ℚ), create_tile_video [some dur] .fadeblack d
        = .ok (.filterGraph [.scaleV 0, .scaleA 0,
            .fadeOutV (.v 0) (dur - d / 2) (d / 2) (.vf 0),
            .fadeOutA (.a 0) (dur - d / 2) (d / 2) (.af 0),
            .concatStage [.vf 0, .af 0] 1]))
    ∧ (∀ (x : Option ℚ) (d : ℚ),
        create_tile_video [x] .fade d = .ok (.filterGraph [.scaleV 0, .scaleA 0])
        ∧ Lbl.outv ∉ ([Stage.scaleV 0, Stage.scaleA 0].flatMap Stage.outputs)) := by
  refine ⟨fun x kind d => rfl, fun x d => ?_, fun dur d => ?_, fun x d => ⟨?_, by decide⟩⟩
  · rw [create_tile_video, if_neg (by simp), if_pos ⟨rfl, rfl⟩]
  · rw [create_tile_video, if_neg (by simp),
      if_neg (fun hc => by exact absurd hc.2 (by simp)), if_neg (by simp)]
    rfl
  · rw [create_tile_video, if_neg (by simp),
      if_neg (fun hc => by exact absurd hc.2 (by simp)), if_neg (by simp)]
    rfl

/-- Counterexample to C9 as stated: a single-clip tile with requested kind
`fadeblack` does not reduce to a pass-through — the synthesized graph
contains a fade-out transition stage (and a one-input concat stage). -/
theorem C9_single_clip_counterexample :
    create_tile_video [some 5] .fadeblack 1
      = .ok (.filterGraph [.scaleV 0, .scaleA 0,
          .fadeOutV (.v 0) (5 - 1 / 2) (1 / 2) (.vf 0),
          .fadeOutA (.a 0) (5 - 1 / 2) (1 / 2) (.af 0),
          .concatStage [.vf 0, .af 0] 1])
    ∧ create_tile_video [some 5] .fadeblack 1 ≠ .ok .passthrough
    ∧ Stage.fadeOutV (.v 0) (5 - 1 / 2) (1 / 2) (.vf 0)
        ∈ [Stage.scaleV 0, Stage.scaleA 0,
            Stage.fadeOutV (.v 0) (5 - 1 / 2) (1 / 2) (.vf 0),
            Stage.fadeOutA (.a 0) (5 - 1 / 2) (1 / 2) (.af 0),
            Stage.concatStage [.vf 0, .af 0] 1] := by
  have h : create_tile_video [some 5] .fadeblack 1
      = .ok (.filterGraph [.scaleV 0, .scaleA 0,
          .fadeOutV (.v 0) (5 - 1 / 2) (1 / 2) (.vf 0),
          .fadeOutA (.a 0) (5 - 1 / 2) (1 / 2) (.af 0),
          .concatStage [.vf 0, .af 0] 1]) := by
    rw [create_tile_video, if_neg (by simp),
      if_neg (fun hc => by exact absurd hc.2 (by simp)), if_neg (by simp)]
    rfl
  refine ⟨h, ?_, ?_⟩
  · rw [h]
    intro hc
    simp at hc
  · exact List.mem_cons_of_mem _ (List.mem_cons_of_mem _ (List.mem_cons_self _ _))

/-! ## Grid layout composition
(`build_xstack_layout` / `build_grid_layout`, src/tile_videos.py lines 591-636) -/

/-- The grid-stack command built by `build_grid_layout`: the xstack layout
position list (row-major, one entry per grid cell), the number of stacked
input streams (`xstack=inputs=len(tile_paths)`), and the `-map` audio
source index.  The function performs no arity check: `positions` always
has `rows * cols` entries while `inputCount` is whatever tile count was
supplied. -/
structure GridCmd where
  positions : List (Nat × Nat)
  inputCount : Nat
  audioTile : Nat
deriving DecidableEq

/-- Embedding of `build_grid_layout`: `tile_width = output_width // cols`,
`tile_height = output_height // rows`, and the nested loop
`for row in range(rows): for col in range(cols):` collecting
`(col * tile_width, row * tile_height)`.  `build_xstack_layout` dispatches
grid layouts here unconditionally, with no tile-count validation
anywhere on the path. -/
def build_grid_layout (rows cols numTiles audioTile outW outH : Nat) : GridCmd :=
  { positions := (List.range rows).flatMap
      (fun row => (List.range cols).map
        (fun col => (col * (outW / cols), row * (outH / rows))))
    inputCount := numTiles
    audioTile := audioTile }

theorem flatMap_const_length {α β : Type} (l : List α) (f : α → List β) (c : Nat)
    (h : ∀ a ∈ l, (f a).length = c) : (l.flatMap f).length = l.length * c := by
  induction l with
  | nil => simp
  | cons a as ih =>
    rw [List.flatMap_cons, List.length_append, h a (List.mem_cons_self a as),
      ih (fun b hb => h b (List.mem_cons_of_mem a hb)), List.length_cons,
      Nat.succ_mul]
    omega

theorem range_flatMap_map_getElem? {β : Type} (rows cols : Nat) (f : Nat → Nat → β)
    (r c : Nat) (hr : r < rows) (hc : c < cols) :
    ((List.range rows).flatMap (fun row => (List.range cols).map (f row)))[r * cols + c]?
      = some (f r c) := by
  induction rows with
  | zero => omega
  | succ rows ih =>
    rw [List.range_succ, List.flatMap_append]
    have hfst : ((List.range rows).flatMap
        (fun row => (List.range cols).map (f row))).length = rows * cols := by
      rw [flatMap_const_length _ _ cols (fun a _ => by simp), List.length_range]
    by_cases h : r < rows
    · rw [List.getElem?_append_left (by
        rw [hfst]
        calc r * cols + c < r * cols + cols := by omega
          _ = (r + 1) * cols := (Nat.succ_mul r cols).symm
          _ ≤ rows * cols := Nat.mul_le_mul_right cols (by omega))]
      exact ih h
    · have hr2 : r = rows := by omega
      subst hr2
      rw [List.getElem?_append_right (by rw [hfst]; omega), hfst,
        show r * cols + c - r * cols = c by omega]
      simp only [List.flatMap_cons, List.flatMap_nil, List.append_nil]
      rw [List.getElem?_map, List.getElem?_range hc]
      rfl

/-- C5 (amended): `build_grid_layout` performs no arity check — the
grid-stack stage is emitted for any supplied tile count, with
`inputCount` equal to that count and `rows * cols` layout positions; the
cell at row `r`, column `c` (row-major) is placed at
`(c * (outW / cols), r * (outH / rows))`, so for `Grid(2,2)` the four
positions are `(0,0), (cellW,0), (0,cellH), (cellW,cellH)`. -/
theorem C5_grid_layout_amended (rows cols numTiles audioTile outW outH : Nat)
    (r c : Nat) (hr : r < rows) (hc : c < cols) :
    (build_grid_layout rows cols numTiles audioTile outW outH).inputCount = numTiles
    ∧ (build_grid_layout rows cols numTiles audioTile outW outH).positions.length
        = rows * cols
    ∧ (build_grid_layout rows cols numTiles audioTile outW outH).positions[r * cols + c]?
        = some (c * (outW / cols), r * (outH / rows))
    ∧ (build_grid_layout 2 2 4 audioTile outW outH).positions
        = [(0, 0), (outW / 2, 0), (0, outH / 2), (outW / 2, outH / 2)] := by
  refine ⟨rfl, ?_, range_flatMap_map_getElem? rows cols _ r c hr hc, ?_⟩
  · show ((List.range rows).flatMap _).length = rows * cols
    rw [flatMap_const_length _ _ cols (fun a _ => by simp), List.length_range]
  · simp [build_grid_layout, List.range_succ]

/-- Concrete use of `C5_grid_layout_amended` on a 1920x1080 `Grid(2,2)`
with the matching four tiles, discharging its cell-coordinate
hypotheses at row 1, column 1. -/
theorem C5_grid_layout_witness :
    1 < 2 ∧ 1 < 2
    ∧ ((build_grid_layout 2 2 4 0 1920 1080).inputCount = 4
      ∧ (build_grid_layout 2 2 4 0 1920 1080).positions.length = 2 * 2
      ∧ (build_grid_layout 2 2 4 0 1920 1080).positions[1 * 2 + 1]?
          = some (1 * (1920 / 2), 1 * (1080 / 2))
      ∧ (build_grid_layout 2 2 4 0 1920 1080).positions
          = [(0, 0), (1920 / 2, 0), (0, 1080 / 2), (1920 / 2, 1080 / 2)]) :=
  ⟨by decide, by decide,
    C5_grid_layout_amended 2 2 4 0 1920 1080 1 1 (by decide) (by decide)⟩

/-- Counterexample to C5 as stated: `Grid(2,2)` with only 3 supplied tiles
does not fail with `ArityMismatch` before any stage is emitted — the
grid-stack command is emitted anyway, stacking 3 inputs against 4 layout
positions. -/
theorem C5_arity_counterexample :
    build_grid_layout 2 2 3 0 1920 1080
      = { positions := [(0, 0), (960, 0), (0, 540), (960, 540)],
          inputCount := 3, audioTile := 0 }
    ∧ (build_grid_layout 2 2 3 0 1920 1080).inputCount
      ≠ (build_grid_layout 2 2 3 0 1920 1080).positions.length := by
  constructor
  · simp [build_grid_layout, List.range_succ]
  · intro hc
    have h4 : (build_grid_layout 2 2 3 0 1920 1080).positions.length = 2 * 2 := by
      unfold build_grid_layout
      rw [flatMap_const_length _ _ 2 (fun a _ => by simp), List.length_range]
    rw [h4] at hc
    simp [build_grid_layout] at hc

/-! ## Crop/scale normalization (`get_scale_filter`, src/tile_videos.py lines 254-288;
the same position table appears in `build_tile_with_transitions` lines 458-487) -/

/-- The nine crop anchors of the `CROP_POSITIONS` dictionary. -/
inductive CropPosition
  | center
  | top
  | bottom
  | left
  | right
  | topLeft
  | topRight
  | bottomLeft
  | bottomRight
deriving DecidableEq

/-- The crop origin `(x, y)` of the crop filter emitted by
`get_scale_filter` in `crop` fit mode, as a function of the target size
`w x h` and the scaled input size `iw x ih`.  The emitted strings are
`crop=w:h` for `center` (ffmpeg's documented default origin for omitted
coordinates is the centred `((iw-w)/2, (ih-h)/2)`) and explicit
`crop=w:h:x:y` origins for the other anchors, copied literally from the
source's string table. -/
def get_scale_filter_crop_origin (pos : CropPosition) (w h iw ih : ℚ) : ℚ × ℚ :=
  match pos with
  | .center => ((iw - w) / 2, (ih - h) / 2)
  | .top => (0, 0)
  | .bottom => (0, ih - h)
  | .left => (0, 0)
  | .right => (iw - w, 0)
  | .topLeft => (0, 0)
  | .topRight => (iw - w, 0)
  | .bottomLeft => (0, ih - h)
  | .bottomRight => (iw - w, ih - h)

/-- C8 (amended): in `crop` fit mode the crop origin is determined by the
anchor as follows — `center` crops evenly from opposing sides (origin
`((iw-w)/2, (ih-h)/2)`); the edge anchors pin their anchored edge on
their own axis while the other axis is pinned to coordinate `0` (the
left/top edge), not centred: `top` and `left` give `(0, 0)`, `bottom`
gives `(0, ih-h)`, `right` gives `(iw-w, 0)`; the corner anchors crop
from the two opposite edges simultaneously; and `bottom-right` with
target 640x360 yields origin `(iw-640, ih-360)`. -/
theorem C8_crop_anchor_amended (w h iw ih : ℚ) :
    get_scale_filter_crop_origin .center w h iw ih = ((iw - w) / 2, (ih - h) / 2)
    ∧ get_scale_filter_crop_origin .top w h iw ih = (0, 0)
    ∧ get_scale_filter_crop_origin .bottom w h iw ih = (0, ih - h)
    ∧ get_scale_filter_crop_origin .left w h iw ih = (0, 0)
    ∧ get_scale_filter_crop_origin .right w h iw ih = (iw - w, 0)
    ∧ get_scale_filter_crop_origin .topLeft w h iw ih = (0, 0)
    ∧ get_scale_filter_crop_origin .topRight w h iw ih = (iw - w, 0)
    ∧ get_scale_filter_crop_origin .bottomLeft w h iw ih = (0, ih - h)
    ∧ get_scale_filter_crop_origin .bottomRight w h iw ih = (iw - w, ih - h)
    ∧ get_scale_filter_crop_origin .bottomRight 640 360 iw ih = (iw - 640, ih - 360) :=
  ⟨rfl, rfl, rfl, rfl, rfl, rfl, rfl, rfl, rfl, rfl⟩

/-- Counterexample to C8 as stated: for the edge anchor `top` with target
640x360 on a scaled 1280x360 input, the claim's "the other axis stays
centered" would put the horizontal origin at `(iw - w) / 2 = 320`, but
the emitted origin is `0`. -/
theorem C8_crop_anchor_counterexample :
    (get_scale_filter_crop_origin .top 640 360 1280 360).1 = 0
    ∧ (get_scale_filter_crop_origin .top 640 360 1280 360).1
      ≠ ((1280 : ℚ) - 640) / 2 := by
  constructor
  · rfl
  · intro hc
    norm_num [get_scale_filter_crop_origin] at hc

/-! ## Duration synchronization (`main`, src/tile_videos.py lines 1084-1127) -/

/-- `max_duration = max(tile_durations)`: Python `max` over a nonempty
list is a left fold of the binary max over its tail. -/
def maxDuration : List ℚ → ℚ
  | [] => 0
  | x :: xs => xs.foldl max x

/-- The looping condition `duration < max_duration - 0.1` (the 0.1 s
tolerance: "if significantly shorter"). -/
def needsLoop (maxD dur : ℚ) : Bool := decide (dur < maxD - 1 / 10)

/-- `loops_needed = int(max_duration / duration) + 1`.  Python `int()`
truncates toward zero, which for the positive durations involved is the
floor. -/
def loops_needed (maxD dur : ℚ) : ℤ := ⌊maxD / dur⌋ + 1

/-- The realized duration of one tile after synchronization: a tile that
needs looping is replaced by `loops_needed` lossless repetitions of
itself trimmed with `-t max_duration` (an ffmpeg `-t` limit yields the
smaller of the stream length and the limit); other tiles are left
untouched. -/
def syncedDuration (maxD dur : ℚ) : ℚ :=
  if needsLoop maxD dur then min ((loops_needed maxD dur : ℚ) * dur) maxD else dur

/-- C2 (amended): every tile whose duration is below
`maxDuration - 0.1` is replaced by the tile stream repeated
`floor(maxDuration / duration) + 1` times — not `ceil(...) + 1` as
claimed — and trimmed to exactly `maxDuration`, while tiles within the
0.1 s tolerance are left untouched; for tile durations `[12, 5, 12]`
exactly the second tile is looped and its synchronized duration (12)
lies in `[11.9, 12.1]`. -/
theorem C2_duration_sync_amended (maxD dur : ℚ) (hpos : 0 < dur) :
    (dur < maxD - 1 / 10 →
        loops_needed maxD dur = ⌊maxD / dur⌋ + 1
        ∧ syncedDuration maxD dur = maxD)
    ∧ (¬ dur < maxD - 1 / 10 → syncedDuration maxD dur = dur)
    ∧ maxDuration [12, 5, 12] = 12
    ∧ [12, 5, 12].map (fun x => needsLoop (maxDuration [12, 5, 12]) x)
        = [false, true, false]
    ∧ needsLoop 12 5 = true
    ∧ (119 / 10 : ℚ) ≤ syncedDuration 12 5 ∧ syncedDuration 12 5 ≤ 121 / 10 := by
  have hmax12 : maxDuration [12, 5, 12] = 12 := by
    show max (max (12 : ℚ) 5) 12 = 12
    norm_num
  have hsync : ∀ m du : ℚ, 0 < du → du < m - 1 / 10 → syncedDuration m du = m := by
    intro m du hdu hlt
    rw [syncedDuration, if_pos (by rw [needsLoop]; exact decide_eq_true hlt)]
    refine min_eq_right (le_of_lt ?_)
    have h1 : m / du < (⌊m / du⌋ : ℚ) + 1 := Int.lt_floor_add_one (m / du)
    have h2 : m / du * du < ((⌊m / du⌋ : ℚ) + 1) * du :=
      mul_lt_mul_of_pos_right h1 hdu
    rw [div_mul_cancel₀ m (ne_of_gt hdu)] at h2
    rw [loops_needed]
    push_cast
    exact h2
  have hs125 : syncedDuration 12 5 = 12 := hsync 12 5 (by norm_num) (by norm_num)
  refine ⟨fun hlt => ⟨rfl, hsync maxD dur hpos hlt⟩, ?_, hmax12, ?_, ?_, ?_, ?_⟩
  · intro hge
    rw [syncedDuration,
      if_neg (by rw [needsLoop]; exact fun hc => hge (of_decide_eq_true hc))]
  · rw [hmax12]
    show [needsLoop 12 12, needsLoop 12 5, needsLoop 12 12] = [false, true, false]
    rw [needsLoop, needsLoop]
    norm_num
  · rw [needsLoop]
    norm_num
  · rw [hs125]
    norm_num
  · rw [hs125]
    norm_num

/-- Concrete use of `C2_duration_sync_amended`, discharging its positivity
hypothesis at the spec's example durations `maxD = 12`, `dur = 5`. -/
theorem C2_duration_sync_witness :
    (0 : ℚ) < 5
    ∧ (((5 : ℚ) < 12 - 1 / 10 →
          loops_needed 12 5 = ⌊(12 : ℚ) / 5⌋ + 1 ∧ syncedDuration 12 5 = 12)
      ∧ (¬ (5 : ℚ) < 12 - 1 / 10 → syncedDuration 12 5 = 5)
      ∧ maxDuration [12, 5, 12] = 12
      ∧ [12, 5, 12].map (fun x => needsLoop (maxDuration [12, 5, 12]) x)
          = [false, true, false]
      ∧ needsLoop 12 5 = true
      ∧ (119 / 10 : ℚ) ≤ syncedDuration 12 5 ∧ syncedDuration 12 5 ≤ 121 / 10) :=
  ⟨by norm_num, C2_duration_sync_amended 12 5 (by norm_num)⟩

/-- Counterexample to C2 as stated: at the claim's own instance
(tile durations `[12, 5, 12]`, so `maxDuration = 12` and the looped
tile's duration is 5), the repeat count is
`floor(12 / 5) + 1 = 3`, not `ceil(12 / 5) + 1 = 4`. -/
theorem C2_loop_count_counterexample :
    loops_needed 12 5 = 3 ∧ loops_needed 12 5 ≠ ⌈(12 : ℚ) / 5⌉ + 1 := by
  have hfloor : loops_needed 12 5 = 3 := by
    rw [loops_needed]
    norm_num
  have hceil : (⌈(12 : ℚ) / 5⌉ : ℤ) = 3 := by
    rw [Int.ceil_eq_iff]
    norm_num
  refine ⟨hfloor, ?_⟩
  rw [hfloor, hceil]
  norm_num

/-! ## Frame effect of `distribute_videos`

To state what `distribute_videos` mutates, the Python lists are given an
explicit store: a `Heap` maps references (cell indices) to list values.
The imperative body of `distribute_videos` is re-embedded as a store
program: `[[] for _ in range(num_tiles)]` allocates fresh buckets,
`distributed[tile_idx].append(video)` writes a bucket,
`video_files[start_idx:end_idx]` allocates a fresh list (a Python slice
copies), `shuffled = video_files.copy()` allocates a fresh copy, and
`random.shuffle(shuffled)` writes that copy in place. -/

/-- A store of Python list objects: cell `r` holds the list value of the
object referenced by `r`. -/
structure Heap (α : Type) where
  cells : List (List α)

/-- Dereference a list object. -/
def Heap.read {α : Type} (h : Heap α) (r : Nat) : List α := h.cells.getD r []

/-- Allocate a fresh list object, returning the new store and its
reference. -/
def Heap.alloc {α : Type} (h : Heap α) (v : List α) : Heap α × Nat :=
  (⟨h.cells ++ [v]⟩, h.cells.length)

/-- Mutate a list object in place. -/
def Heap.write {α : Type} (h : Heap α) (r : Nat) (v : List α) : Heap α :=
  ⟨modifyNth (fun _ => v) r h.cells⟩

/-- `distributed = [[] for _ in range(num_tiles)]`: allocate `n` fresh
empty buckets. -/
def allocBuckets {α : Type} : Heap α → Nat → Heap α × List Nat
  | h, 0 => (h, [])
  | h, n + 1 =>
      let p := allocBuckets (h.alloc []).1 n
      (p.1, (h.alloc []).2 :: p.2)

/-- Allocate one fresh list object per computed chunk (each Python slice
`video_files[start_idx:end_idx]` is a fresh list). -/
def allocChunks {α : Type} : Heap α → List (List α) → Heap α × List Nat
  | h, [] => (h, [])
  | h, c :: cs =>
      let p := allocChunks (h.alloc c).1 cs
      (p.1, (h.alloc c).2 :: p.2)

/-- The round-robin loop as a store program:
`distributed[i % num_tiles].append(video)` mutates one bucket. -/
def rrHeapAux {α : Type} (T : Nat) (refs : List Nat) : List α → Nat → Heap α → Heap α
  | [], _, h => h
  | v :: vs, i, h =>
      rrHeapAux T refs vs (i + 1)
        (h.write (refs.getD (i % T) 0) (h.read (refs.getD (i % T) 0) ++ [v]))

/-- Store-level embedding of `distribute_videos`: `input` is the reference
of the caller's `video_files` object, and the returned references are the
per-tile list objects.  In `random` mode the copy (`.copy()`) is a fresh
allocation and the in-place `random.shuffle` writes only that copy (the
shuffle itself is the seed-threaded model `shuffleSeed`). -/
def distribute_videos_heap {α : Type} (h : Heap α) (input : Nat) (T : Nat)
    (mode : DistMode) (seed : Nat) : Heap α × List Nat :=
  match mode with
  | .roundRobin =>
      let p := allocBuckets h T
      (rrHeapAux T p.2 (p.1.read input) 0 p.1, p.2)
  | .sequential =>
      let clips := h.read input
      allocChunks h (seqSplitAux (clips.length / T) (clips.length % T) clips 0 T)
  | .random =>
      let clips := h.read input
      let h1 := (h.alloc clips).1
      let sref := (h.alloc clips).2
      let h2 := h1.write sref (shuffleSeed seed (h1.read sref))
      allocChunks h2 (seqSplitAux (clips.length / T) (clips.length % T) (h2.read sref) 0 T)

theorem Heap.read_alloc {α : Type} (h : Heap α) (v : List α) (i : Nat)
    (hi : i < h.cells.length) : ((h.alloc v).1).read i = h.read i := by
  simp only [Heap.alloc, Heap.read]
  rw [List.getD_eq_getElem?_getD, List.getD_eq_getElem?_getD,
    List.getElem?_append_left hi]

theorem Heap.read_write_ne {α : Type} (h : Heap α) (r : Nat) (v : List α) (i : Nat)
    (hne : i ≠ r) : (h.write r v).read i = h.read i := by
  simp only [Heap.write, Heap.read]
  rw [List.getD_eq_getElem?_getD, List.getD_eq_getElem?_getD, modifyNth_getElem?,
    if_neg hne]

theorem Heap.write_cells_length {α : Type} (h : Heap α) (r : Nat) (v : List α) :
    (h.write r v).cells.length = h.cells.length :=
  modifyNth_length _ r h.cells

theorem allocBuckets_spec {α : Type} :
    ∀ (n : Nat) (h : Heap α),
      (∀ i, i < h.cells.length → ((allocBuckets h n).1).read i = h.read i)
      ∧ (∀ r ∈ (allocBuckets h n).2, h.cells.length ≤ r)
      ∧ (allocBuckets h n).2.length = n := by
  intro n
  induction n with
  | zero =>
    intro h
    exact ⟨fun i _ => rfl, by intro r hr; simp [allocBuckets] at hr, rfl⟩
  | succ n ih =>
    intro h
    obtain ⟨ih1, ih2, ih3⟩ := ih (h.alloc []).1
    have hlen : (h.alloc []).1.cells.length = h.cells.length + 1 := by
      simp [Heap.alloc]
    simp only [allocBuckets]
    refine ⟨?_, ?_, by simp [ih3]⟩
    · intro i hi
      rw [ih1 i (by omega), Heap.read_alloc h [] i hi]
    · intro r hr
      rcases List.mem_cons.mp hr with hr | hr
      · rw [hr]
        exact Nat.le_refl _
      · have := ih2 r hr
        omega

theorem allocChunks_spec {α : Type} :
    ∀ (cs : List (List α)) (h : Heap α),
      (∀ i, i < h.cells.length → ((allocChunks h cs).1).read i = h.read i)
      ∧ (∀ r ∈ (allocChunks h cs).2, h.cells.length ≤ r) := by
  intro cs
  induction cs with
  | nil =>
    intro h
    exact ⟨fun i _ => rfl, by intro r hr; simp [allocChunks] at hr⟩
  | cons c cs ih =>
    intro h
    obtain ⟨ih1, ih2⟩ := ih (h.alloc c).1
    have hlen : (h.alloc c).1.cells.length = h.cells.length + 1 := by
      simp [Heap.alloc]
    simp only [allocChunks]
    constructor
    · intro i hi
      rw [ih1 i (by omega), Heap.read_alloc h c i hi]
    · intro r hr
      rcases List.mem_cons.mp hr with hr | hr
      · rw [hr]
        exact Nat.le_refl _
      · have := ih2 r hr
        omega

theorem rrHeapAux_read_ne {α : Type} (T : Nat) (refs : List Nat) (hT : 1 ≤ T)
    (hlen : refs.length = T) (input : Nat) (href : ∀ r ∈ refs, r ≠ input) :
    ∀ (vs : List α) (i : Nat) (h : Heap α),
      (rrHeapAux T refs vs i h).read input = h.read input := by
  intro vs
  induction vs with
  | nil => intro i h; rfl
  | cons v vs ih =>
    intro i h
    rw [rrHeapAux, ih]
    have hmem : refs.getD (i % T) 0 ∈ refs := by
      rw [List.getD_eq_getElem?_getD,
        List.getElem?_eq_getElem (by rw [hlen]; exact Nat.mod_lt i (by omega))]
      exact List.getElem_mem _
    exact Heap.read_write_ne h _ _ input (fun he => href _ hmem he.symm)

/-- C10: for every distribution mode, `distribute_videos` leaves the
caller's clip-list object unchanged — after the call the input reference
still holds its original value — and every returned per-tile list is a
fresh object distinct from the input (in particular, in `random` mode
the in-place shuffle happens on a freshly allocated copy, never on the
input itself). -/
theorem C10_distribute_frame_effect {α : Type} (h : Heap α) (input T seed : Nat)
    (mode : DistMode) (hin : input < h.cells.length) (hT : 1 ≤ T) :
    ((distribute_videos_heap h input T mode seed).1).read input = h.read input
    ∧ ∀ r ∈ (distribute_videos_heap h input T mode seed).2, r ≠ input := by
  cases mode with
  | roundRobin =>
    obtain ⟨hb1, hb2, hb3⟩ := allocBuckets_spec T h
    simp only [distribute_videos_heap]
    have hfresh : ∀ r ∈ (allocBuckets h T).2, r ≠ input := by
      intro r hr
      have := hb2 r hr
      omega
    refine ⟨?_, hfresh⟩
    rw [rrHeapAux_read_ne T (allocBuckets h T).2 hT hb3 input hfresh, hb1 input hin]
  | sequential =>
    obtain ⟨hc1, hc2⟩ := allocChunks_spec
      (seqSplitAux ((h.read input).length / T) ((h.read input).length % T)
        (h.read input) 0 T) h
    simp only [distribute_videos_heap]
    exact ⟨hc1 input hin, fun r hr => by have := hc2 r hr; omega⟩
  | random =>
    have hsref : (h.alloc (h.read input)).2 = h.cells.length := rfl
    have hne : input ≠ (h.alloc (h.read input)).2 := by
      rw [hsref]; omega
    have hlen2 : (((h.alloc (h.read input)).1).write (h.alloc (h.read input)).2
        (shuffleSeed seed (((h.alloc (h.read input)).1).read
          (h.alloc (h.read input)).2))).cells.length = h.cells.length + 1 := by
      rw [Heap.write_cells_length]
      simp [Heap.alloc]
    obtain ⟨hc1, hc2⟩ := allocChunks_spec
      (seqSplitAux ((h.read input).length / T) ((h.read input).length % T)
        ((((h.alloc (h.read input)).1).write (h.alloc (h.read input)).2
          (shuffleSeed seed (((h.alloc (h.read input)).1).read
            (h.alloc (h.read input)).2))).read (h.alloc (h.read input)).2) 0 T)
      (((h.alloc (h.read input)).1).write (h.alloc (h.read input)).2
        (shuffleSeed seed (((h.alloc (h.read input)).1).read
          (h.alloc (h.read input)).2)))
    simp only [distribute_videos_heap]
    constructor
    · rw [hc1 input (by omega), Heap.read_write_ne _ _ _ input hne,
        Heap.read_alloc h _ input hin]
    · intro r hr
      have := hc2 r hr
      omega

/-- Concrete use of `C10_distribute_frame_effect` on a one-object store in
`random` mode, discharging its hypotheses. -/
theorem C10_distribute_frame_effect_witness :
    0 < (Heap.mk [[1, 2, 3]] : Heap Nat).cells.length ∧ 1 ≤ 2
    ∧ (((distribute_videos_heap (Heap.mk [[1, 2, 3]]) 0 2 .random 0).1).read 0
        = (Heap.mk [[1, 2, 3]] : Heap Nat).read 0
      ∧ ∀ r ∈ (distribute_videos_heap (Heap.mk [[1, 2, 3]]) 0 2 .random 0).2, r ≠ 0) :=
  ⟨by decide, by decide,
    C10_distribute_frame_effect (Heap.mk [[1, 2, 3]]) 0 2 0 .random (by decide) (by decide)⟩

end VideoTiling
